import Mathlib

/-!
Verification development for the WARN-notice monitor (`warn_monitor.py`).

The Python source is shallowly embedded below.  Python strings are modelled
as Lean `String` (a list of characters); `pandas` cell values are modelled by
`Cell` (a present string or the missing value `NaN`); a table row (`Record`)
is the ordered association list of column names to cells; machine integers do
not occur.  Every definition is translated from the source file; the only
external behaviours that are modelled rather than translated are
  * the `fuzzywuzzy` scoring functions called at `fuzz.token_set_ratio`
    (translated from that library's documented algorithm), and
  * CPython's built-in `hash` on strings, which is salted by a per-process
    seed (`PYTHONHASHSEED`); it is embedded as an explicit function of that
    seed so that cross-run behaviour is expressible.
-/

/-! ## Python string primitives -/

/-- Whitespace characters recognised by Python's `str.strip` / `str.split`
(the subset that can occur in this program's data). -/
def isWsChar (c : Char) : Bool :=
  c = ' ' || c = '\n' || c = '\t' || c = '\r'

/-- Python `str.strip()`: drop whitespace from both ends. -/
def pyStrip (s : String) : String :=
  String.mk (((s.data.dropWhile isWsChar).reverse.dropWhile isWsChar).reverse)

/-- Python `str.lower()` (ASCII, which covers all data in this program). -/
def lowerStr (s : String) : String :=
  String.mk (s.data.map Char.toLower)

/-- Does the list `hay` start with `needle`? -/
def leadsWith : List Char → List Char → Bool
  | [], _ => true
  | _ :: _, [] => false
  | a :: as, b :: bs => a = b && leadsWith as bs

/-- Python's `needle in hay` substring test on strings (char-list form). -/
def subIn (needle : List Char) : List Char → Bool
  | [] => leadsWith needle []
  | c :: t => leadsWith needle (c :: t) || subIn needle t

/-- Python's `needle in hay` substring test on strings. -/
def strHas (hay needle : String) : Bool :=
  subIn needle.data hay.data

/-- Python `sep.join(parts)`. -/
def pyJoin (sep : String) : List String → String
  | [] => ""
  | [x] => x
  | x :: y :: ys => x ++ sep ++ pyJoin sep (y :: ys)

/-- Python `str.split()`: split on whitespace runs, no empty parts.
`acc` holds the reversed characters of the token currently being read. -/
def splitWsGo : List Char → List Char → List String
  | [], acc => if acc = [] then [] else [String.mk acc.reverse]
  | c :: cs, acc =>
    if isWsChar c then
      if acc = [] then splitWsGo cs [] else String.mk acc.reverse :: splitWsGo cs []
    else
      splitWsGo cs (c :: acc)

/-- Python `str.split()` on a character list. -/
def splitWs (l : List Char) : List String := splitWsGo l []

/-! ## Token-set similarity (`fuzzywuzzy`)

`fuzz.token_set_ratio` as documented and implemented by the library:
full-process both strings, split into deduplicated word sets, and take the
maximum pairwise `fuzz.ratio` between the sorted intersection and the two
sorted combined strings.  `fuzz.ratio` is the rounded normalised similarity
`round(100 * 2*M / (|a|+|b|))`, with `M` the number of matched characters
(the longest-common-subsequence length for these inputs). -/

/-- Lexicographic (code-point) order on character lists, as Python compares
strings. -/
def charListLe : List Char → List Char → Bool
  | [], _ => true
  | _ :: _, [] => false
  | a :: as, b :: bs => if a = b then charListLe as bs else decide (a.toNat < b.toNat)

/-- String order used by Python `sorted`. -/
def strLeB (a b : String) : Bool := charListLe a.data b.data

/-- Insert into a sorted list of strings. -/
def insertSorted (x : String) : List String → List String
  | [] => [x]
  | y :: ys => if strLeB x y then x :: y :: ys else y :: insertSorted x ys

/-- Python `sorted` on a list of strings (insertion sort). -/
def sortStr : List String → List String
  | [] => []
  | x :: xs => insertSorted x (sortStr xs)

/-- Deduplicate a list of strings keeping first occurrences (`set` built by
iteration). -/
def dedupGo : List String → List String → List String
  | [], _ => []
  | x :: xs, seenAcc =>
    if x ∈ seenAcc then dedupGo xs seenAcc else x :: dedupGo xs (x :: seenAcc)

/-- Deduplicate a list of strings keeping first occurrences. -/
def dedupStr (l : List String) : List String := dedupGo l []

/-- `fuzzywuzzy`'s `utils.full_process`: keep ASCII, replace every character
other than letters, digits and underscore by a space, lowercase, and strip. -/
def fullProcess (s : String) : String :=
  pyStrip (String.mk ((s.data.filter (fun c => c.toNat < 128)).map
    (fun c => if c.isAlphanum || c = '_' then c.toLower else ' ')))

/-- One row of the longest-common-subsequence table.  `prev` is the previous
row, `left` the entry just computed in the current row. -/
def lcsRowGo (ca : Char) : List Char → List Nat → Nat → List Nat
  | [], _, _ => []
  | cb :: bs, pj :: ps, left =>
    let cur := if ca = cb then pj + 1 else max (ps.headD 0) left
    cur :: lcsRowGo ca bs ps cur
  | _ :: _, [], _ => []

/-- Next row of the LCS table for character `ca`. -/
def lcsRow (ca : Char) (b : List Char) (prev : List Nat) : List Nat :=
  0 :: lcsRowGo ca b prev 0

/-- Longest-common-subsequence length of two character lists. -/
def lcs (a b : List Char) : Nat :=
  (a.foldl (fun row ca => lcsRow ca b row) (List.replicate (b.length + 1) 0)).getLastD 0

/-- Python 3 `round` on the fraction `num / den` (round half to even),
as applied by `fuzzywuzzy` to `100 * 2*M/T`. -/
def pyRoundDiv (num den : Nat) : Nat :=
  let q := num / den
  let r := num % den
  if 2 * r < den then q else if den < 2 * r then q + 1 else if q % 2 = 0 then q else q + 1

/-- `fuzz.ratio`: rounded similarity `round(100 * 2*M/T)` with `T` the total
length; `100` when both strings are empty. -/
def pairScore (a b : String) : Nat :=
  let t := a.data.length + b.data.length
  if t = 0 then 100 else pyRoundDiv (200 * lcs a.data b.data) t

/-- `fuzz.token_set_ratio`. -/
def tokenSetScore (s1 s2 : String) : Nat :=
  let t1 := dedupStr (splitWs (fullProcess s1).data)
  let t2 := dedupStr (splitWs (fullProcess s2).data)
  let sect := sortStr (t1.filter (fun w => w ∈ t2))
  let d12 := sortStr (t1.filter (fun w => w ∉ t2))
  let d21 := sortStr (t2.filter (fun w => w ∉ t1))
  let sorted_sect := pyJoin " " sect
  let combined_1to2 := pyStrip (sorted_sect ++ " " ++ pyJoin " " d12)
  let combined_2to1 := pyStrip (sorted_sect ++ " " ++ pyJoin " " d21)
  let base := pyStrip sorted_sect
  max (pairScore base combined_1to2)
    (max (pairScore base combined_2to1) (pairScore combined_1to2 combined_2to1))

/-! ## Data model -/

/-- A spreadsheet cell: either missing (`NaN`, for which `pd.isna` is true)
or a string value. -/
inductive Cell where
  | na : Cell
  | s : String → Cell
deriving DecidableEq

/-- Python `str()` of a cell value. -/
def cellStr : Cell → String
  | Cell.na => "nan"
  | Cell.s v => v

/-- One row of the parsed table: ordered column name / cell pairs
(`row.index` is the list of first components). -/
abbrev Record := List (String × Cell)

/-- The parsed table: the data frame's columns and rows. -/
structure Table where
  cols : List String
  rows : List Record
deriving DecidableEq

/-! ## EntityMatcher (`fuzzy_match_company`, source lines 134-148) -/

/-- `fuzzy_match_company(company_name, target, threshold)`: `False` for a
missing candidate, otherwise strip and lowercase both strings and compare the
token-set score against the threshold. -/
def fuzzy_match_company (company_name : Cell) (target : String) (threshold : Int) : Bool :=
  match company_name with
  | Cell.na => false
  | Cell.s v =>
    let company_clean := lowerStr (pyStrip v)
    let target_clean := lowerStr (pyStrip target)
    decide ((tokenSetScore company_clean target_clean : Int) ≥ threshold)

/-! ## RecordFilter (`filter_company_records`, source lines 151-181) -/

/-- Header synonyms scanned for when resolving the company-name column. -/
def possible_columns : List String :=
  ["Company", "Employer", "Company Name", "Business Name", "Name"]

/-- Resolve which column holds the company name: first column whose
lowercased name contains a lowercased synonym as a substring, else the first
column. -/
def resolveCompanyCol (cols : List String) : String :=
  match cols.find? (fun col => possible_columns.any
      (fun pc => strHas (lowerStr col) (lowerStr pc))) with
  | some c => c
  | none => cols.headD ""

/-- Look up a cell by column name in a row (`row[col]`). -/
def lookupCell (r : Record) (col : String) : Cell :=
  match r.find? (fun p => p.1 = col) with
  | some p => p.2
  | none => Cell.na

/-- `filter_company_records(df, target_company, threshold)`: keep the rows
whose resolved company cell fuzzy-matches the target. -/
def filter_company_records (t : Table) (target_company : String) (threshold : Int) :
    List Record :=
  let company_col := resolveCompanyCol t.cols
  t.rows.filter (fun r => fuzzy_match_company (lookupCell r company_col) target_company threshold)

/-! ## IdentityKeyDeriver (inside `detect_new_notices`, source lines 227-232) -/

/-- Is this a key column: its lowercased name contains `date` or `company`? -/
def isKeyCol (col : String) : Bool :=
  strHas (lowerStr col) "date" || strHas (lowerStr col) "company"

/-- Python `repr` of a cell, as it appears inside `str(row.to_dict())`. -/
def reprCell : Cell → String
  | Cell.na => "nan"
  | Cell.s v => "'" ++ v ++ "'"

/-- `str(row.to_dict())`: the Python textual form of the row's dictionary. -/
def reprRecord (r : Record) : String :=
  "\x7b" ++ pyJoin ", " (r.map (fun p => "'" ++ p.1 ++ "': " ++ reprCell p.2)) ++ "\x7d"

/-- Modelled: CPython's built-in `hash` on a string.  It is salted by the
per-process seed `PYTHONHASHSEED` (randomised by default), so it is embedded
as an explicit function of that seed; the only fact used about it is that its
value varies with the seed. -/
def pyHashStr (seed : Nat) (s : String) : Nat :=
  s.data.foldl (fun a c => (a * 131 + c.toNat) % 2 ^ 61) (seed % 2 ^ 61)

/-- The identity key derived for a row: the stringified cells of the
date/company-like columns joined by `|`; if there are none, the stringified
built-in hash of the row dictionary's text (which depends on the process hash
seed). -/
def deriveKey (seed : Nat) (r : Record) : String :=
  let key_parts := r.filterMap (fun p => if isKeyCol p.1 then some (cellStr p.2) else none)
  if key_parts = [] then toString (pyHashStr seed (reprRecord r)) else pyJoin "|" key_parts

/-! ## NoveltyTracker (`detect_new_notices`, source lines 208-241) -/

/-- Python `set.add`: membership-preserving insert. -/
def setAdd (s : List String) (k : String) : List String :=
  if k ∈ s then s else s ++ [k]

/-- Python `set(l)`: deduplicate, keeping membership. -/
def setOfList : List String → List String
  | [] => []
  | x :: xs => let s := setOfList xs; if x ∈ s then s else x :: s

/-- The loop of `detect_new_notices`: for each row, derive its key; rows with
unseen keys are collected and their keys added to the seen set. -/
def detectGo (seed : Nat) : List Record → List String → List Record × List String
  | [], seen_notices => ([], seen_notices)
  | r :: rs, seen_notices =>
    let notice_key := deriveKey seed r
    if notice_key ∈ seen_notices then detectGo seed rs seen_notices
    else
      let p := detectGo seed rs (setAdd seen_notices notice_key)
      (r :: p.1, p.2)

/-- `detect_new_notices(current_matches, state)`: empty input returns no new
notices and leaves the seen list untouched; otherwise the seen list is turned
into a set and the loop above runs.  Returns the new notices and the updated
seen list. -/
def detect_new_notices (seed : Nat) (current_matches : List Record) (seen : List String) :
    List Record × List String :=
  if current_matches = [] then ([], seen)
  else detectGo seed current_matches (setOfList seen)

/-! ## Per-company state key (source line 382) -/

/-- Python single-character `str.replace(a, b)` at character level. -/
def replaceChar (s : String) (a b : Char) : String :=
  String.mk (s.data.map (fun c => if c = a then b else c))

/-- Python single-character `str.replace(a, '')` at character level. -/
def deleteChar (s : String) (a : Char) : String :=
  String.mk (s.data.filter (fun c => ¬(c = a)))

/-- `company_key`: the state-dictionary key for a company's seen notices,
`"seen_notices_" + company.replace(' ', '_').replace(',', '').replace('.', '')`. -/
def company_key (company : String) : String :=
  "seen_notices_" ++ deleteChar (deleteChar (replaceChar company ' ' '_') ',') '.'

/-- Character-level description of the sanitisation actually performed:
spaces become underscores, commas and periods are dropped, and every other
character is kept unchanged. -/
def sanitizeSpec (company : String) : String :=
  String.mk (company.data.filterMap
    (fun c => if c = ' ' then some '_' else if c = ',' ∨ c = '.' then none else some c))

/-! ## StateStore (`load_state` / `save_state`, source lines 189-205)

The state is a Python dictionary written with `json.dump(state, f, indent=2)`
and read back with `json.load(f)`.  The JSON values that can occur in this
program's state are null, strings, arrays and objects; they are embedded as
`JVal`.  `renderV` reproduces the exact text layout `json.dump` emits with
`indent=2` (item separator `,` + newline + indentation, key separator `: `),
and the parser models `json.load` on that fragment: it skips whitespace
between tokens and reads strings without escape sequences, which suffices for
every well-formed state (see `plainChar`). -/

/-- A JSON value of the shapes occurring in the persisted state. -/
inductive JVal where
  | null : JVal
  | str : String → JVal
  | arr : List JVal → JVal
  | obj : List (String × JVal) → JVal

/-- A run of `n` spaces. -/
def spaces (n : Nat) : List Char := List.replicate n ' '

mutual

/-- The characters `json.dump(v, indent=2)` writes for value `v` at
indentation level `ind`. -/
def renderV (ind : Nat) : JVal → List Char
  | JVal.null => ['n', 'u', 'l', 'l']
  | JVal.str s => '"' :: (s.data ++ ['"'])
  | JVal.arr [] => ['[', ']']
  | JVal.arr (x :: xs) => '[' :: (itemsChunk ind x xs ++ ('\n' :: (spaces ind ++ [']'])))
  | JVal.obj [] => ['\x7b', '\x7d']
  | JVal.obj ((k, v) :: fs) =>
    '\x7b' :: (fieldsChunk ind k v fs ++ ('\n' :: (spaces ind ++ ['\x7d'])))
termination_by j => sizeOf j

/-- The rendered items of a non-empty array: each on its own line, indented
two further, separated by commas. -/
def itemsChunk (ind : Nat) (x : JVal) (xs : List JVal) : List Char :=
  ('\n' :: (spaces (ind + 2) ++ renderV (ind + 2) x)) ++
    (match xs with
     | [] => []
     | y :: ys => ',' :: itemsChunk ind y ys)
termination_by 1 + sizeOf x + sizeOf xs

/-- The rendered fields of a non-empty object: `"key": value` lines,
indented two further, separated by commas. -/
def fieldsChunk (ind : Nat) (k : String) (v : JVal) (fs : List (String × JVal)) : List Char :=
  ('\n' :: (spaces (ind + 2) ++ ('"' :: (k.data ++ ('"' :: ':' :: ' ' :: renderV (ind + 2) v))))) ++
    (match fs with
     | [] => []
     | (k2, v2) :: gs => ',' :: fieldsChunk ind k2 v2 gs)
termination_by 1 + sizeOf v + sizeOf fs

end

/-- `json.dump(state, f, indent=2)`: the exact file text written. -/
def dumps (v : JVal) : String := String.mk (renderV 0 v)

/-- `save_state(state_file, state)`: the text written to the state file. -/
def save_state (state : JVal) : String := dumps state

/-- Skip leading whitespace. -/
def skipWs : List Char → List Char
  | [] => []
  | c :: cs => if isWsChar c then skipWs cs else c :: cs

/-- Read the body of a JSON string after the opening quote, up to the closing
quote.  Escape sequences do not occur in well-formed states and are not
accepted. -/
def parseStrChars : List Char → Option (List Char × List Char)
  | [] => none
  | c :: cs =>
    if c = '"' then some ([], cs)
    else if c = '\\' then none
    else
      match parseStrChars cs with
      | some p => some (c :: p.1, p.2)
      | none => none

mutual

/-- Parse one JSON value, skipping leading whitespace; returns the value and
the unconsumed tail.  `fuel` bounds the recursion depth. -/
def parseVal : Nat → List Char → Option (JVal × List Char)
  | 0, _ => none
  | fuel + 1, cs =>
    match skipWs cs with
    | [] => none
    | c :: t =>
      if c = 'n' then
        match t with
        | 'u' :: 'l' :: 'l' :: rest => some (JVal.null, rest)
        | _ => none
      else if c = '"' then
        match parseStrChars t with
        | some p => some (JVal.str (String.mk p.1), p.2)
        | none => none
      else if c = '[' then
        match parseItems fuel t with
        | some p => some (JVal.arr p.1, p.2)
        | none => none
      else if c = '\x7b' then
        match parseFields fuel t with
        | some p => some (JVal.obj p.1, p.2)
        | none => none
      else none

/-- Parse the items of an array after the opening bracket, up to and
including the closing bracket. -/
def parseItems : Nat → List Char → Option (List JVal × List Char)
  | 0, _ => none
  | fuel + 1, cs =>
    match skipWs cs with
    | [] => none
    | c :: t =>
      if c = ']' then some ([], t)
      else
        match parseVal fuel (c :: t) with
        | some (v, rest) =>
          match skipWs rest with
          | [] => none
          | c2 :: t2 =>
            if c2 = ',' then
              match parseItems fuel t2 with
              | some p => some (v :: p.1, p.2)
              | none => none
            else if c2 = ']' then some ([v], t2)
            else none
        | none => none

/-- Parse the fields of an object after the opening brace, up to and
including the closing brace. -/
def parseFields : Nat → List Char → Option (List (String × JVal) × List Char)
  | 0, _ => none
  | fuel + 1, cs =>
    match skipWs cs with
    | [] => none
    | c :: t =>
      if c = '\x7d' then some ([], t)
      else if c = '"' then
        match parseStrChars t with
        | some (k, r1) =>
          match skipWs r1 with
          | [] => none
          | c2 :: t2 =>
            if c2 = ':' then
              match parseVal fuel t2 with
              | some (v, r3) =>
                match skipWs r3 with
                | [] => none
                | c3 :: t3 =>
                  if c3 = ',' then
                    match parseFields fuel t3 with
                    | some p => some ((String.mk k, v) :: p.1, p.2)
                    | none => none
                  else if c3 = '\x7d' then some ([(String.mk k, v)], t3)
                  else none
              | none => none
            else none
        | none => none
      else none

end

/-- `json.load`: parse the whole text, allowing surrounding whitespace and
rejecting trailing garbage. -/
def parseJson (s : String) : Option JVal :=
  match parseVal (s.data.length + 1) s.data with
  | some (v, rest) => if skipWs rest = [] then some v else none
  | none => none

/-- The default state `load_state` returns when no state file exists. -/
def defaultState : JVal :=
  JVal.obj [("last_file_hash", JVal.null), ("last_check", JVal.null)]

/-- `load_state(state_file)`: defaults when the file is absent, otherwise the
parse of its contents (`json.load` fails on malformed text). -/
def load_state (contents : Option String) : Option JVal :=
  match contents with
  | none => some defaultState
  | some text => parseJson text

/-- A character that `json.dump` writes without an escape sequence: printable
ASCII other than the quote and the backslash.  File hashes, ISO timestamps,
state keys and identity keys are made of such characters. -/
def plainChar (c : Char) : Bool :=
  decide (32 ≤ c.toNat) && decide (c.toNat ≤ 126) && ¬(c = '"') && ¬(c = '\\')

/-- A string all of whose characters are plain. -/
def plainStr (s : String) : Bool := s.data.all plainChar

mutual

/-- All strings in the value are plain. -/
def wfV : JVal → Bool
  | JVal.null => true
  | JVal.str s => plainStr s
  | JVal.arr xs => wfArr xs
  | JVal.obj fs => wfObj fs

/-- All strings in the items are plain. -/
def wfArr : List JVal → Bool
  | [] => true
  | x :: xs => wfV x && wfArr xs

/-- All keys and all strings in the field values are plain. -/
def wfObj : List (String × JVal) → Bool
  | [] => true
  | f :: fs => plainStr f.1 && wfV f.2 && wfObj fs

end

/-- A state field value has one of the shapes the program stores: null, a
string, or an array of strings. -/
def stateFieldOk : JVal → Bool
  | JVal.null => true
  | JVal.str _ => true
  | JVal.arr xs => xs.all (fun v => match v with | JVal.str _ => true | _ => false)
  | JVal.obj _ => false

/-- A well-formed `NoveltyState` document: an object whose strings are plain
and whose field values are null, strings, or arrays of strings. -/
def wellFormedState : JVal → Bool
  | JVal.obj fs => wfObj fs && fs.all (fun f => stateFieldOk f.2)
  | _ => false

mutual

/-- Fuel needed by `parseVal` to parse the rendering of a value. -/
def costV : JVal → Nat
  | JVal.null => 1
  | JVal.str _ => 1
  | JVal.arr xs => 2 + costArr xs
  | JVal.obj fs => 2 + costObj fs

/-- Fuel needed by `parseItems` for the rendered items. -/
def costArr : List JVal → Nat
  | [] => 0
  | x :: xs => 1 + costV x + costArr xs

/-- Fuel needed by `parseFields` for the rendered fields. -/
def costObj : List (String × JVal) → Nat
  | [] => 0
  | f :: fs => 1 + costV f.2 + costObj fs

end

/-! ## SnapshotGate and the per-run pipeline (`main`, source lines 334-421) -/

/-- The persisted novelty state: the last processed file hash, the last check
timestamp, and one seen-keys list per company-state key. -/
structure PState where
  last_file_hash : Option String
  last_check : Option String
  seen : List (String × List String)
deriving DecidableEq

/-- `state.get(company_key, [])`. -/
def lookupSeen (st : List (String × List String)) (k : String) : List String :=
  match st.find? (fun p => p.1 = k) with
  | some p => p.2
  | none => []

/-- `state[company_key] = v`: update in place or append. -/
def setSeen (st : List (String × List String)) (k : String) (v : List String) :
    List (String × List String) :=
  if st.any (fun p => p.1 = k) then
    st.map (fun p => if p.1 = k then (k, v) else p)
  else st ++ [(k, v)]

/-- One run of `main` after the file hash is computed, returning the state to
be saved and the number of records processed.  When the hash equals the
stored `last_file_hash` the whole pipeline is skipped and only `last_check`
is refreshed; otherwise every target company is filtered and checked for new
notices, its seen list updated, and finally the hash and timestamp stored. -/
def mainRun (seed : Nat) (file_hash now : String) (df : Table)
    (target_companies : List String) (threshold : Int) (state : PState) : PState × Nat :=
  if state.last_file_hash = some file_hash then
    ({ state with last_check := some now }, 0)
  else
    let state' := target_companies.foldl (fun acc company =>
      let matched := filter_company_records df company threshold
      let prev := lookupSeen acc.seen (company_key company)
      let p := detect_new_notices seed matched prev
      { acc with seen := setSeen acc.seen (company_key company) p.2 }) state
    ({ state' with last_file_hash := some file_hash, last_check := some now },
      df.rows.length)

/-! ## Helper lemmas -/

theorem mem_setOfList {a : String} {l : List String} : a ∈ setOfList l ↔ a ∈ l := by
  induction l with
  | nil => simp [setOfList]
  | cons x xs ih =>
    simp only [setOfList]
    by_cases hx : x ∈ setOfList xs
    · simp only [hx, if_pos, List.mem_cons]
      constructor
      · intro h; exact Or.inr (ih.mp h)
      · rintro (h | h)
        · rw [h]; exact hx
        · exact ih.mpr h
    · simp [hx, List.mem_cons, ih]

theorem detectGo_of_all_seen {seed : Nat} {l : List Record} {s : List String}
    (h : ∀ r ∈ l, deriveKey seed r ∈ s) : detectGo seed l s = ([], s) := by
  induction l with
  | nil => rfl
  | cons r rs ih =>
    have hr : deriveKey seed r ∈ s := h r (List.mem_cons_self r rs)
    simp only [detectGo, hr, if_pos]
    exact ih (fun x hx => h x (List.mem_cons_of_mem r hx))

theorem mem_detectGo_snd {seed : Nat} {l : List Record} {s : List String} {k : String}
    (hk : k ∈ s) : k ∈ (detectGo seed l s).2 := by
  induction l generalizing s with
  | nil => exact hk
  | cons r rs ih =>
    simp only [detectGo]
    by_cases hr : deriveKey seed r ∈ s
    · simp only [hr, if_pos]; exact ih hk
    · simp only [hr, if_neg, not_false_iff]
      exact ih (by simp [setAdd, hr, List.mem_append, hk])

theorem detectGo_snd_eq (seed : Nat) (l : List Record) (s : List String) :
    (detectGo seed l s).2 = s ++ (detectGo seed l s).1.map (deriveKey seed) := by
  induction l generalizing s with
  | nil => simp [detectGo]
  | cons r rs ih =>
    simp only [detectGo]
    by_cases hr : deriveKey seed r ∈ s
    · simpa [hr] using ih s
    · simp only [hr, if_neg, not_false_iff, List.map_cons]
      rw [ih (setAdd s (deriveKey seed r))]
      simp [setAdd, hr]

theorem detectGo_fst_keys_fresh {seed : Nat} {l : List Record} {s : List String} {k : String}
    (h : k ∈ (detectGo seed l s).1.map (deriveKey seed)) : k ∉ s := by
  induction l generalizing s with
  | nil => simp [detectGo] at h
  | cons r rs ih =>
    simp only [detectGo] at h
    by_cases hr : deriveKey seed r ∈ s
    · simp only [hr, if_pos] at h
      exact ih h
    · simp only [hr, if_neg, not_false_iff, List.map_cons, List.mem_cons] at h
      rcases h with h | h
      · rw [h]; exact hr
      · intro hks
        exact ih h (by simp [setAdd, hr, List.mem_append, hks])

theorem detectGo_fst_keys_nodup (seed : Nat) (l : List Record) (s : List String) :
    ((detectGo seed l s).1.map (deriveKey seed)).Nodup := by
  induction l generalizing s with
  | nil => simp [detectGo]
  | cons r rs ih =>
    simp only [detectGo]
    by_cases hr : deriveKey seed r ∈ s
    · simp only [hr, if_pos]; exact ih s
    · simp only [hr, if_neg, not_false_iff, List.map_cons, List.nodup_cons]
      refine ⟨fun hmem => ?_, ih (setAdd s (deriveKey seed r))⟩
      have := detectGo_fst_keys_fresh hmem
      exact this (by simp [setAdd, hr, List.mem_append])

theorem detectGo_append (seed : Nat) (a b : List Record) (s : List String) :
    detectGo seed (a ++ b) s =
      ((detectGo seed a s).1 ++ (detectGo seed b (detectGo seed a s).2).1,
        (detectGo seed b (detectGo seed a s).2).2) := by
  induction a generalizing s with
  | nil => simp [detectGo]
  | cons r rs ih =>
    simp only [List.cons_append, detectGo]
    by_cases hr : deriveKey seed r ∈ s
    · simp only [hr, if_pos]; exact ih s
    · simp only [hr, if_neg, not_false_iff, List.append_eq]
      rw [ih (setAdd s (deriveKey seed r))]
      simp [List.cons_append]

theorem sanitize_chars (l : List Char) :
    ((l.map (fun c => if c = ' ' then '_' else c)).filter (fun c => ¬(c = ','))).filter
        (fun c => ¬(c = '.')) =
      l.filterMap
        (fun c => if c = ' ' then some '_' else if c = ',' ∨ c = '.' then none else some c) := by
  induction l with
  | nil => rfl
  | cons c cs ih =>
    by_cases hsp : c = ' '
    · subst hsp
      simpa using ih
    · by_cases hco : c = ','
      · subst hco
        simpa using ih
      · by_cases hdo : c = '.'
        · subst hdo
          simpa using ih
        · simpa [hsp, hco, hdo] using ih

theorem detectGo_fst_key_sub {seed : Nat} {l : List Record} {s : List String} {k : String}
    (h : k ∈ (detectGo seed l s).1.map (deriveKey seed)) :
    k ∈ l.map (deriveKey seed) := by
  induction l generalizing s with
  | nil => simp [detectGo] at h
  | cons r rs ih =>
    simp only [detectGo] at h
    simp only [List.map_cons, List.mem_cons]
    by_cases hr : deriveKey seed r ∈ s
    · simp only [hr, if_pos] at h
      exact Or.inr (ih h)
    · simp only [hr, if_neg, not_false_iff, List.map_cons, List.mem_cons] at h
      rcases h with h | h
      · exact Or.inl h
      · exact Or.inr (ih h)

/-! ## Claim theorems -/

/-- C1.  The claim requires the fallback identity key (used when no column
name contains `date` or `company`) to be a deterministic content hash, equal
across runs.  The code instead uses `str(hash(str(row.to_dict())))`, and
CPython's built-in string hash is salted by the per-process hash seed, so two
runs derive different keys for the same record: a code bug the specification
itself flags (§9).  The record `[("Region", "SF")]` has no date/company-like
column, yet its derived key under seed 0 differs from its key under seed 1. -/
theorem deriveKey_fallback_not_deterministic :
    (([("Region", Cell.s "SF")] : Record).all (fun p => !(isKeyCol p.1)) = true) ∧
    deriveKey 0 [("Region", Cell.s "SF")] ≠ deriveKey 1 [("Region", Cell.s "SF")] := by
  constructor
  · decide
  · decide

/-- C2.  If the seen set already contains the derived key of every record in
the list, `detect_new_notices` reports no new notices. -/
theorem detect_new_notices_idempotent (seed : Nat) (records : List Record)
    (seen : List String) (h : ∀ r ∈ records, deriveKey seed r ∈ seen) :
    (detect_new_notices seed records seen).1 = [] := by
  unfold detect_new_notices
  by_cases hrec : records = []
  · simp [hrec]
  · simp only [hrec, if_neg, not_false_iff]
    rw [detectGo_of_all_seen (fun r hr => mem_setOfList.mpr (h r hr))]

/-- Witness for C2 at a concrete record list and seen set. -/
theorem detect_new_notices_idempotent_witness :
    (detect_new_notices 0 [[("Notice Date", Cell.s "2024-01-01")]] ["2024-01-01"]).1 = [] :=
  detect_new_notices_idempotent 0 [[("Notice Date", Cell.s "2024-01-01")]] ["2024-01-01"]
    (by decide)

/-- C9.  A `detect_new_notices` call with a non-empty record list never
removes a key: every key in the input seen list is in the updated seen list. -/
theorem detect_new_notices_seen_grows (seed : Nat) (records : List Record)
    (seen : List String) (k : String) (hne : records ≠ []) (hk : k ∈ seen) :
    k ∈ (detect_new_notices seed records seen).2 := by
  unfold detect_new_notices
  simp only [hne, if_neg, not_false_iff]
  exact mem_detectGo_snd (mem_setOfList.mpr hk)

/-- Witness for C9 at a concrete record list and seen set. -/
theorem detect_new_notices_seen_grows_witness :
    "old-key" ∈ (detect_new_notices 0 [[("Notice Date", Cell.s "2024-01-01")]] ["old-key"]).2 :=
  detect_new_notices_seen_grows 0 [[("Notice Date", Cell.s "2024-01-01")]] ["old-key"]
    "old-key" (by decide) (by decide)

/-- C10.  Within one `detect_new_notices` call, records are deduplicated by
identity key: the first record carrying an unseen key is reported, and the
reported records have pairwise distinct keys, so a later record with the same
key contributes no second entry. -/
theorem detect_new_notices_dedup (seed : Nat) (seen : List String)
    (pre post : List Record) (r : Record)
    (hunseen : deriveKey seed r ∉ seen)
    (hfirst : ∀ x ∈ pre, deriveKey seed x ≠ deriveKey seed r) :
    r ∈ (detect_new_notices seed (pre ++ r :: post) seen).1 ∧
    ((detect_new_notices seed (pre ++ r :: post) seen).1.map (deriveKey seed)).Nodup := by
  have hne : pre ++ r :: post ≠ [] := by simp
  unfold detect_new_notices
  simp only [hne, if_neg, not_false_iff]
  refine ⟨?_, detectGo_fst_keys_nodup seed (pre ++ r :: post) (setOfList seen)⟩
  rw [detectGo_append]
  set s1 := (detectGo seed pre (setOfList seen)).2 with hs1
  have hrky : deriveKey seed r ∉ s1 := by
    rw [hs1, detectGo_snd_eq]
    intro hmem
    rcases List.mem_append.mp hmem with hmem | hmem
    · exact hunseen (mem_setOfList.mp hmem)
    · rcases List.mem_map.mp (detectGo_fst_key_sub hmem) with ⟨x, hx, hkey⟩
      exact hfirst x hx hkey
  simp only [List.mem_append]
  right
  simp [detectGo, hrky]

/-- Witness for C10 at a concrete duplicate pair. -/
theorem detect_new_notices_dedup_witness :
    [("Notice Date", Cell.s "2024-01-01")] ∈
      (detect_new_notices 0
        [[("Notice Date", Cell.s "2024-01-01")], [("Notice Date", Cell.s "2024-01-01")]]
        []).1 ∧
    ((detect_new_notices 0
        [[("Notice Date", Cell.s "2024-01-01")], [("Notice Date", Cell.s "2024-01-01")]]
        []).1.map (deriveKey 0)).Nodup :=
  detect_new_notices_dedup 0 [] [] [[("Notice Date", Cell.s "2024-01-01")]]
    [("Notice Date", Cell.s "2024-01-01")] (by decide) (by decide)

/-- C3, counterexample.  At the claimed scenario the code behaves otherwise:
the token-set score of "ACME CORPORATION" against "Acme Corp" is 72, so the
row does not fuzzy-match at threshold 85; and since the column name
"Employer Name" contains neither "date" nor "company", the derived key is
only the two date cells joined by `|`, not the claimed three-part key. -/
theorem acme_scenario_counterexample :
    tokenSetScore "acme corporation" "acme corp" = 72 ∧
    fuzzy_match_company (Cell.s "ACME CORPORATION") "Acme Corp" 85 = false ∧
    deriveKey 0 [("Employer Name", Cell.s "ACME CORPORATION"),
        ("Notice Date", Cell.s "2024-01-01"), ("Effective Date", Cell.s "2024-03-01")] ≠
      "2024-01-01|2024-03-01|ACME CORPORATION" := by
  refine ⟨by decide, by decide, by decide⟩

/-- C3, amended.  At the claimed scenario the row scores 72, hence does not
satisfy the fuzzy match at threshold 85 though it does at 72, and its derived
identity key is "2024-01-01|2024-03-01": the date-like cell values joined by
`|` in column order, the employer cell excluded because "Employer Name"
contains neither "date" nor "company". -/
theorem acme_scenario_amended :
    fuzzy_match_company (Cell.s "ACME CORPORATION") "Acme Corp" 85 = false ∧
    fuzzy_match_company (Cell.s "ACME CORPORATION") "Acme Corp" 72 = true ∧
    deriveKey 0 [("Employer Name", Cell.s "ACME CORPORATION"),
        ("Notice Date", Cell.s "2024-01-01"), ("Effective Date", Cell.s "2024-03-01")] =
      "2024-01-01|2024-03-01" := by
  refine ⟨by decide, by decide, by decide⟩

/-- C4.  When the current file hash equals the stored `last_file_hash`, the
run processes zero records, refreshes `last_check`, and leaves the stored
hash and every company's seen list untouched. -/
theorem snapshot_gate_frame (seed : Nat) (file_hash now : String) (df : Table)
    (target_companies : List String) (threshold : Int) (state : PState)
    (h : state.last_file_hash = some file_hash) :
    (mainRun seed file_hash now df target_companies threshold state).2 = 0 ∧
    (mainRun seed file_hash now df target_companies threshold state).1.last_check = some now ∧
    (mainRun seed file_hash now df target_companies threshold state).1.last_file_hash =
      state.last_file_hash ∧
    (mainRun seed file_hash now df target_companies threshold state).1.seen = state.seen := by
  obtain ⟨lfh, lc, sn⟩ := state
  simp only at h
  simp [mainRun, h]

/-- Witness for C4 at a concrete hash, state and table. -/
theorem snapshot_gate_frame_witness :
    (PState.mk (some "hash0") none [("seen_notices_UCSF", ["k1"])]).last_file_hash =
      some "hash0" ∧
    (mainRun 0 "hash0" "2024-06-01T00:00:00" (Table.mk ["Company"] [[("Company", Cell.s "UCSF")]])
        ["UCSF"] 85 (PState.mk (some "hash0") none [("seen_notices_UCSF", ["k1"])])).2 = 0 ∧
    (mainRun 0 "hash0" "2024-06-01T00:00:00" (Table.mk ["Company"] [[("Company", Cell.s "UCSF")]])
        ["UCSF"] 85 (PState.mk (some "hash0") none [("seen_notices_UCSF", ["k1"])])).1.last_check =
      some "2024-06-01T00:00:00" ∧
    (mainRun 0 "hash0" "2024-06-01T00:00:00" (Table.mk ["Company"] [[("Company", Cell.s "UCSF")]])
        ["UCSF"] 85 (PState.mk (some "hash0") none [("seen_notices_UCSF", ["k1"])])).1.last_file_hash =
      (PState.mk (some "hash0") none [("seen_notices_UCSF", ["k1"])]).last_file_hash ∧
    (mainRun 0 "hash0" "2024-06-01T00:00:00" (Table.mk ["Company"] [[("Company", Cell.s "UCSF")]])
        ["UCSF"] 85 (PState.mk (some "hash0") none [("seen_notices_UCSF", ["k1"])])).1.seen =
      (PState.mk (some "hash0") none [("seen_notices_UCSF", ["k1"])]).seen := by
  refine ⟨rfl, ?_⟩
  exact snapshot_gate_frame 0 "hash0" "2024-06-01T00:00:00"
    (Table.mk ["Company"] [[("Company", Cell.s "UCSF")]]) ["UCSF"] 85
    (PState.mk (some "hash0") none [("seen_notices_UCSF", ["k1"])]) rfl

/-- C5, counterexample.  The claim says every non-alphanumeric character of
the entity name is replaced or stripped in the state key, but the code only
handles spaces, commas and periods: for "AT&T" the non-alphanumeric `&`
survives verbatim in the key. -/
theorem company_key_counterexample :
    company_key "AT&T" = "seen_notices_AT&T" ∧
    '&' ∈ (company_key "AT&T").data ∧ '&'.isAlphanum = false := by
  refine ⟨by decide, by decide, by decide⟩

/-- C5, amended.  The state key for an entity is the fixed literal
`seen_notices_` followed by the entity name with each space replaced by an
underscore and each comma and period removed; every other character,
non-alphanumeric ones included, is kept unchanged. -/
theorem company_key_amended (company : String) :
    company_key company = "seen_notices_" ++ sanitizeSpec company := by
  obtain ⟨l⟩ := company
  show "seen_notices_" ++ String.mk (((l.map (fun c => if c = ' ' then '_' else c)).filter
        (fun c => ¬(c = ','))).filter (fun c => ¬(c = '.'))) =
    "seen_notices_" ++ String.mk (l.filterMap
      (fun c => if c = ' ' then some '_' else if c = ',' ∨ c = '.' then none else some c))
  rw [sanitize_chars]

/-- C7.  The fuzzy match is monotone in the threshold: a candidate matching a
target at threshold `t` also matches at any threshold `t' ≤ t`. -/
theorem fuzzy_match_monotone (name : Cell) (target : String) (t t' : Int)
    (hle : t' ≤ t) (h : fuzzy_match_company name target t = true) :
    fuzzy_match_company name target t' = true := by
  cases name with
  | na => simp [fuzzy_match_company] at h
  | s v =>
    simp only [fuzzy_match_company, ge_iff_le, decide_eq_true_eq] at h ⊢
    omega

/-- Witness for C7: matching at 100 implies matching at 85. -/
theorem fuzzy_match_monotone_witness :
    (85 : Int) ≤ 100 ∧ fuzzy_match_company (Cell.s "UCSF") "UCSF" 85 = true :=
  ⟨by decide, fuzzy_match_monotone (Cell.s "UCSF") "UCSF" 100 85 (by decide) (by decide)⟩

/-- C8.  A missing (`NaN`) candidate never matches, at any target and
threshold, and the check is total (no exception path). -/
theorem fuzzy_match_na_false (target : String) (threshold : Int) :
    fuzzy_match_company Cell.na target threshold = false := rfl

/-! ## StateStore round trip (C6) -/

theorem string_mk_data (s : String) : String.mk s.data = s := by
  obtain ⟨l⟩ := s; rfl

theorem skipWs_cons_nws {c : Char} (cs : List Char) (h : isWsChar c = false) :
    skipWs (c :: cs) = c :: cs := by
  simp [skipWs, h]

theorem skipWs_cons_ws {c : Char} (cs : List Char) (h : isWsChar c = true) :
    skipWs (c :: cs) = skipWs cs := by
  simp [skipWs, h]

theorem skipWs_ws_append {ws : List Char} (cs : List Char) (h : ws.all isWsChar = true) :
    skipWs (ws ++ cs) = skipWs cs := by
  induction ws with
  | nil => rfl
  | cons c t ih =>
    simp only [List.all_cons, Bool.and_eq_true] at h
    simp [skipWs, h.1, ih h.2]

theorem spaces_all_ws (n : Nat) : (spaces n).all isWsChar = true := by
  induction n with
  | zero => rfl
  | succ n ih => simp [spaces, List.replicate_succ, isWsChar]

theorem skipWs_line (n : Nat) (x : List Char) :
    skipWs ('\n' :: (spaces n ++ x)) = skipWs x := by
  rw [show ('\n' :: (spaces n ++ x)) = ('\n' :: spaces n) ++ x by simp]
  exact skipWs_ws_append x (by simp [List.all_cons, spaces_all_ws, isWsChar])

theorem parseStrChars_render (s rest : List Char) (h : s.all plainChar = true) :
    parseStrChars (s ++ '"' :: rest) = some (s, rest) := by
  induction s with
  | nil => rfl
  | cons c t ih =>
    simp only [List.all_cons, Bool.and_eq_true] at h
    have hc := h.1
    simp only [plainChar, Bool.and_eq_true, decide_eq_true_eq] at hc
    simp only [List.cons_append, parseStrChars, if_neg hc.1.2, if_neg hc.2, List.append_eq,
      ih h.2]

theorem renderV_head (ind : Nat) (j : JVal) :
    ∃ c t, renderV ind j = c :: t ∧ isWsChar c = false ∧ ¬(c = ']') ∧ ¬(c = '\x7d') := by
  cases j with
  | null => exact ⟨'n', ['u', 'l', 'l'], by simp [renderV], by decide, by decide, by decide⟩
  | str s => exact ⟨'"', s.data ++ ['"'], by simp [renderV], by decide, by decide, by decide⟩
  | arr xs =>
    cases xs with
    | nil => exact ⟨'[', [']'], by simp [renderV], by decide, by decide, by decide⟩
    | cons x xs =>
      exact ⟨'[', itemsChunk ind x xs ++ ('\n' :: (spaces ind ++ [']'])),
        by simp [renderV], by decide, by decide, by decide⟩
  | obj fs =>
    cases fs with
    | nil => exact ⟨'\x7b', ['\x7d'], by simp [renderV], by decide, by decide, by decide⟩
    | cons f fs =>
      obtain ⟨k, v⟩ := f
      exact ⟨'\x7b', fieldsChunk ind k v fs ++ ('\n' :: (spaces ind ++ ['\x7d'])),
        by simp [renderV], by decide, by decide, by decide⟩

theorem costV_pos (j : JVal) : 1 ≤ costV j := by
  cases j <;> simp [costV] <;> omega

theorem parse_render_all (fuel : Nat) :
    (∀ (ws : List Char) (j : JVal) (ind : Nat) (rest : List Char),
        ws.all isWsChar = true → wfV j = true → costV j ≤ fuel →
        parseVal fuel (ws ++ (renderV ind j ++ rest)) = some (j, rest)) ∧
    (∀ (ind : Nat) (x : JVal) (xs : List JVal) (rest : List Char),
        wfArr (x :: xs) = true → costArr (x :: xs) ≤ fuel →
        parseItems fuel (itemsChunk ind x xs ++ ('\n' :: (spaces ind ++ (']' :: rest)))) =
          some (x :: xs, rest)) ∧
    (∀ (ind : Nat) (k : String) (v : JVal) (fs : List (String × JVal)) (rest : List Char),
        wfObj ((k, v) :: fs) = true → costObj ((k, v) :: fs) ≤ fuel →
        parseFields fuel (fieldsChunk ind k v fs ++ ('\n' :: (spaces ind ++ ('\x7d' :: rest)))) =
          some ((k, v) :: fs, rest)) := by
  induction fuel with
  | zero =>
    refine ⟨fun ws j ind rest _ _ hcost => ?_, fun ind x xs rest _ hcost => ?_,
      fun ind k v fs rest _ hcost => ?_⟩
    · have := costV_pos j; omega
    · simp [costArr] at hcost
    · simp [costObj] at hcost
  | succ fuel ih =>
    obtain ⟨ihA, ihB, ihC⟩ := ih
    refine ⟨?_, ?_, ?_⟩
    · -- Part A: parseVal
      intro ws j ind rest hws hwf hcost
      cases j with
      | null =>
        have e1 : renderV ind JVal.null = ['n', 'u', 'l', 'l'] := by simp [renderV]
        rw [e1]
        simp only [List.cons_append, List.nil_append]
        have e2 : skipWs (ws ++ 'n' :: 'u' :: 'l' :: 'l' :: rest) = 'n' :: 'u' :: 'l' :: 'l' :: rest := by
          rw [skipWs_ws_append _ hws]
          exact skipWs_cons_nws _ (by decide)
        simp [parseVal, e2]
      | str s =>
        have hplain : plainStr s = true := by simpa [wfV] using hwf
        have e1 : renderV ind (JVal.str s) = '"' :: (s.data ++ ['"']) := by simp [renderV]
        rw [e1]
        simp only [List.cons_append, List.append_assoc, List.singleton_append]
        have e2 : skipWs (ws ++ '"' :: (s.data ++ '"' :: rest)) =
            '"' :: (s.data ++ '"' :: rest) := by
          rw [skipWs_ws_append _ hws]
          exact skipWs_cons_nws _ (by decide)
        simp [parseVal, e2, parseStrChars_render s.data rest (by simpa [plainStr] using hplain),
          string_mk_data]
      | arr xs =>
        cases xs with
        | nil =>
          have hf : 1 ≤ fuel := by simp [costV, costArr] at hcost; omega
          obtain ⟨g, rfl⟩ : ∃ g, fuel = g + 1 := ⟨fuel - 1, by omega⟩
          have e1 : renderV ind (JVal.arr []) = ['[', ']'] := by simp [renderV]
          rw [e1]
          simp only [List.cons_append, List.nil_append]
          have e2 : skipWs (ws ++ '[' :: ']' :: rest) = '[' :: ']' :: rest := by
            rw [skipWs_ws_append _ hws]
            exact skipWs_cons_nws _ (by decide)
          have e3 : skipWs (']' :: rest) = ']' :: rest := skipWs_cons_nws _ (by decide)
          simp [parseVal, e2, parseItems, e3]
        | cons x xs =>
          have hwf' : wfArr (x :: xs) = true := by simpa [wfV] using hwf
          have hcost' : costArr (x :: xs) ≤ fuel := by simp [costV] at hcost; omega
          have e1 : renderV ind (JVal.arr (x :: xs)) =
              '[' :: (itemsChunk ind x xs ++ ('\n' :: (spaces ind ++ [']']))) := by
            simp [renderV]
          rw [e1]
          simp only [List.cons_append, List.append_assoc, List.singleton_append]
          have e2 : skipWs (ws ++ '[' :: (itemsChunk ind x xs ++
                ('\n' :: (spaces ind ++ (']' :: rest))))) =
              '[' :: (itemsChunk ind x xs ++ ('\n' :: (spaces ind ++ (']' :: rest)))) := by
            rw [skipWs_ws_append _ hws]
            exact skipWs_cons_nws _ (by decide)
          simp [parseVal, e2, ihB ind x xs rest hwf' hcost']
      | obj fs =>
        cases fs with
        | nil =>
          have hf : 1 ≤ fuel := by simp [costV, costObj] at hcost; omega
          obtain ⟨g, rfl⟩ : ∃ g, fuel = g + 1 := ⟨fuel - 1, by omega⟩
          have e1 : renderV ind (JVal.obj []) = ['\x7b', '\x7d'] := by simp [renderV]
          rw [e1]
          simp only [List.cons_append, List.nil_append]
          have e2 : skipWs (ws ++ '\x7b' :: '\x7d' :: rest) = '\x7b' :: '\x7d' :: rest := by
            rw [skipWs_ws_append _ hws]
            exact skipWs_cons_nws _ (by decide)
          have e3 : skipWs ('\x7d' :: rest) = '\x7d' :: rest := skipWs_cons_nws _ (by decide)
          simp [parseVal, e2, parseFields, e3]
        | cons f fs =>
          obtain ⟨k, v⟩ := f
          have hwf' : wfObj ((k, v) :: fs) = true := by simpa [wfV] using hwf
          have hcost' : costObj ((k, v) :: fs) ≤ fuel := by simp [costV] at hcost; omega
          have e1 : renderV ind (JVal.obj ((k, v) :: fs)) =
              '\x7b' :: (fieldsChunk ind k v fs ++ ('\n' :: (spaces ind ++ ['\x7d']))) := by
            simp [renderV]
          rw [e1]
          simp only [List.cons_append, List.append_assoc, List.singleton_append]
          have e2 : skipWs (ws ++ '\x7b' :: (fieldsChunk ind k v fs ++
                ('\n' :: (spaces ind ++ ('\x7d' :: rest))))) =
              '\x7b' :: (fieldsChunk ind k v fs ++ ('\n' :: (spaces ind ++ ('\x7d' :: rest)))) := by
            rw [skipWs_ws_append _ hws]
            exact skipWs_cons_nws _ (by decide)
          simp [parseVal, e2, ihC ind k v fs rest hwf' hcost']
    · -- Part B: parseItems
      intro ind x xs rest hwf hcost
      obtain ⟨hwx, hwxs⟩ : wfV x = true ∧ wfArr xs = true := by
        simpa [wfArr, Bool.and_eq_true] using hwf
      have hcx : costV x ≤ fuel := by simp [costArr] at hcost; omega
      obtain ⟨c0, t0, he, hnws, hne1, hne2⟩ := renderV_head (ind + 2) x
      have e2 : ∀ z : List Char,
          skipWs ('\n' :: (spaces (ind + 2) ++ (renderV (ind + 2) x ++ z))) = c0 :: (t0 ++ z) := by
        intro z
        rw [skipWs_line, he, List.cons_append]
        exact skipWs_cons_nws _ hnws
      have hA : ∀ z : List Char, parseVal fuel (c0 :: (t0 ++ z)) = some (x, z) := by
        intro z
        have h0 := ihA [] x (ind + 2) z rfl hwx hcx
        rw [List.nil_append, he, List.cons_append] at h0
        exact h0
      cases xs with
      | nil =>
        have e1 : itemsChunk ind x [] = '\n' :: (spaces (ind + 2) ++ renderV (ind + 2) x) := by
          simp [itemsChunk]
        rw [e1]
        simp only [List.cons_append, List.append_assoc]
        have e4 : skipWs ('\n' :: (spaces ind ++ (']' :: rest))) = ']' :: rest := by
          rw [skipWs_line]
          exact skipWs_cons_nws _ (by decide)
        simp [parseItems, e2, hA, e4, hne1]
      | cons y ys =>
        have hcys : costArr (y :: ys) ≤ fuel := by
          simp [costArr] at hcost ⊢
          omega
        have e1 : itemsChunk ind x (y :: ys) =
            ('\n' :: (spaces (ind + 2) ++ renderV (ind + 2) x)) ++ (',' :: itemsChunk ind y ys) := by
          simp [itemsChunk]
        rw [e1]
        simp only [List.cons_append, List.append_assoc]
        have hwys : wfArr (y :: ys) = true := hwxs
        have hB := ihB ind y ys rest hwys hcys
        have e5 : skipWs (',' :: (itemsChunk ind y ys ++ ('\n' :: (spaces ind ++ (']' :: rest))))) =
            ',' :: (itemsChunk ind y ys ++ ('\n' :: (spaces ind ++ (']' :: rest)))) :=
          skipWs_cons_nws _ (by decide)
        simp [parseItems, e2, hA, hne1, e5, hB]
    · -- Part C: parseFields
      intro ind k v fs rest hwf hcost
      obtain ⟨hkplain, hwv, hwfs⟩ : plainStr k = true ∧ wfV v = true ∧ wfObj fs = true := by
        simpa [wfObj, Bool.and_eq_true, and_assoc] using hwf
      have hcv : costV v ≤ fuel := by simp [costObj] at hcost; omega
      have e2 : ∀ z : List Char, skipWs ('\n' :: (spaces (ind + 2) ++ ('"' :: z))) = '"' :: z := by
        intro z
        rw [skipWs_line]
        exact skipWs_cons_nws _ (by decide)
      have hK : ∀ z : List Char, parseStrChars (k.data ++ '"' :: z) = some (k.data, z) :=
        fun z => parseStrChars_render k.data z (by simpa [plainStr] using hkplain)
      have e6 : ∀ w : List Char, skipWs (':' :: w) = ':' :: w :=
        fun w => skipWs_cons_nws _ (by decide)
      have hA : ∀ z : List Char, parseVal fuel (' ' :: (renderV (ind + 2) v ++ z)) = some (v, z) := by
        intro z
        have h0 := ihA [' '] v (ind + 2) z (by decide) hwv hcv
        simpa using h0
      cases fs with
      | nil =>
        have e1 : fieldsChunk ind k v [] =
            '\n' :: (spaces (ind + 2) ++ ('"' :: (k.data ++ ('"' :: ':' :: ' ' :: renderV (ind + 2) v)))) := by
          simp [fieldsChunk]
        rw [e1]
        simp only [List.cons_append, List.append_assoc]
        have e4 : skipWs ('\n' :: (spaces ind ++ ('\x7d' :: rest))) = '\x7d' :: rest := by
          rw [skipWs_line]
          exact skipWs_cons_nws _ (by decide)
        simp [parseFields, e2, hK, e6, hA, e4, string_mk_data]
      | cons g gs =>
        obtain ⟨k2, v2⟩ := g
        have hcgs : costObj ((k2, v2) :: gs) ≤ fuel := by
          simp [costObj] at hcost ⊢
          omega
        have hwgs : wfObj ((k2, v2) :: gs) = true := hwfs
        have hC := ihC ind k2 v2 gs rest hwgs hcgs
        have e1 : fieldsChunk ind k v ((k2, v2) :: gs) =
            ('\n' :: (spaces (ind + 2) ++ ('"' :: (k.data ++ ('"' :: ':' :: ' ' :: renderV (ind + 2) v))))) ++
              (',' :: fieldsChunk ind k2 v2 gs) := by
          simp [fieldsChunk]
        rw [e1]
        simp only [List.cons_append, List.append_assoc]
        have e5 : skipWs (',' :: (fieldsChunk ind k2 v2 gs ++ ('\n' :: (spaces ind ++ ('\x7d' :: rest))))) =
            ',' :: (fieldsChunk ind k2 v2 gs ++ ('\n' :: (spaces ind ++ ('\x7d' :: rest)))) :=
          skipWs_cons_nws _ (by decide)
        simp [parseFields, e2, hK, e6, hA, e5, hC, string_mk_data]

theorem jval_sizeOf_pos (j : JVal) : 1 ≤ sizeOf j := by
  cases j <;> simp_arith

theorem jlist_sizeOf_pos (l : List JVal) : 1 ≤ sizeOf l := by
  cases l <;> simp_arith

theorem flist_sizeOf_pos (l : List (String × JVal)) : 1 ≤ sizeOf l := by
  cases l <;> simp_arith

theorem cost_le_render (n : Nat) :
    (∀ (j : JVal) (ind : Nat), sizeOf j ≤ n → costV j ≤ (renderV ind j).length) ∧
    (∀ (ind : Nat) (x : JVal) (xs : List JVal), sizeOf x + sizeOf xs ≤ n →
      costArr (x :: xs) ≤ (itemsChunk ind x xs).length) ∧
    (∀ (ind : Nat) (k : String) (v : JVal) (fs : List (String × JVal)),
      sizeOf v + sizeOf fs ≤ n →
      costObj ((k, v) :: fs) ≤ (fieldsChunk ind k v fs).length) := by
  induction n with
  | zero =>
    refine ⟨fun j ind hsz => ?_, fun ind x xs hsz => ?_, fun ind k v fs hsz => ?_⟩
    · have := jval_sizeOf_pos j; omega
    · have := jval_sizeOf_pos x; omega
    · have := jval_sizeOf_pos v; omega
  | succ n ih =>
    obtain ⟨ih1, ih2, ih3⟩ := ih
    refine ⟨fun j ind hsz => ?_, fun ind x xs hsz => ?_, fun ind k v fs hsz => ?_⟩
    · cases j with
      | null => simp [costV, renderV]
      | str s => simp [costV, renderV]
      | arr xs =>
        cases xs with
        | nil => simp [costV, costArr, renderV]
        | cons x xs =>
          have hx : sizeOf x + sizeOf xs ≤ n := by
            simp_arith at hsz
            omega
          have h2 := ih2 ind x xs hx
          simp only [costV, renderV, List.length_cons, List.length_append, spaces,
            List.length_replicate]
          omega
      | obj fs =>
        cases fs with
        | nil => simp [costV, costObj, renderV]
        | cons f fs =>
          obtain ⟨k, v⟩ := f
          have hx : sizeOf v + sizeOf fs ≤ n := by
            simp_arith at hsz
            omega
          have h3 := ih3 ind k v fs hx
          simp only [costV, renderV, List.length_cons, List.length_append, spaces,
            List.length_replicate]
          omega
    · have hxn : sizeOf x ≤ n := by
        have := jlist_sizeOf_pos xs; omega
      have h1 := ih1 x (ind + 2) hxn
      cases xs with
      | nil =>
        simp only [costArr, itemsChunk, List.length_cons, List.length_append, spaces,
          List.length_replicate]
        omega
      | cons y ys =>
        have hy : sizeOf y + sizeOf ys ≤ n := by
          have := jval_sizeOf_pos x
          simp_arith at hsz
          omega
        have h2 := ih2 ind y ys hy
        simp only [costArr, itemsChunk, List.length_cons, List.length_append, spaces,
          List.length_replicate] at h2 ⊢
        omega
    · have hvn : sizeOf v ≤ n := by
        have := flist_sizeOf_pos fs; omega
      have h1 := ih1 v (ind + 2) hvn
      cases fs with
      | nil =>
        simp only [costObj, fieldsChunk, List.length_cons, List.length_append, spaces,
          List.length_replicate]
        omega
      | cons g gs =>
        obtain ⟨k2, v2⟩ := g
        have hg : sizeOf v2 + sizeOf gs ≤ n := by
          have := jval_sizeOf_pos v
          simp_arith at hsz
          omega
        have h3 := ih3 ind k2 v2 gs hg
        simp only [costObj, fieldsChunk, List.length_cons, List.length_append, spaces,
          List.length_replicate] at h3 ⊢
        omega

theorem parse_dumps (v : JVal) (h : wfV v = true) : parseJson (dumps v) = some v := by
  have hlen : costV v ≤ (renderV 0 v).length + 1 := by
    have := (cost_le_render (sizeOf v)).1 v 0 (le_refl _)
    omega
  have hA := (parse_render_all ((renderV 0 v).length + 1)).1 [] v 0 [] rfl h hlen
  rw [List.nil_append, List.append_nil] at hA
  show (match parseVal ((renderV 0 v).length + 1) (renderV 0 v) with
    | some (v, rest) => if skipWs rest = [] then some v else none
    | none => none) = some v
  rw [hA]
  simp [skipWs]

/-- C6.  Saving a well-formed `NoveltyState` and loading the saved text
yields the state back unchanged, so every key present before the save is
present with an equal value after the load. -/
theorem load_save_roundtrip (st : JVal) (h : wellFormedState st = true) :
    load_state (some (save_state st)) = some st := by
  have hwf : wfV st = true := by
    cases st with
    | obj fs =>
      simp only [wellFormedState, Bool.and_eq_true] at h
      simpa [wfV] using h.1
    | null => simp [wellFormedState] at h
    | str s => simp [wellFormedState] at h
    | arr xs => simp [wellFormedState] at h
  exact parse_dumps st hwf

/-- Witness for C6 at a concrete three-field state. -/
theorem load_save_roundtrip_witness :
    wellFormedState (JVal.obj [("last_file_hash", JVal.str "abc123"), ("last_check", JVal.null),
        ("seen_notices_UCSF", JVal.arr [JVal.str "2024-01-01|UCSF"])]) = true ∧
    load_state (some (save_state (JVal.obj [("last_file_hash", JVal.str "abc123"),
        ("last_check", JVal.null),
        ("seen_notices_UCSF", JVal.arr [JVal.str "2024-01-01|UCSF"])]))) =
      some (JVal.obj [("last_file_hash", JVal.str "abc123"), ("last_check", JVal.null),
        ("seen_notices_UCSF", JVal.arr [JVal.str "2024-01-01|UCSF"])]) :=
  ⟨by decide, load_save_roundtrip _ (by decide)⟩
